import Mathlib

set_option maxHeartbeats 1000000

/-! Shallow embedding of `src/lambda.py`, a small untyped lambda-calculus
interpreter: the diagnostic type, the AST nodes with their evaluation and
rendering, the backtracking parser combinators, the grammar, and the
reduction driver.  Text is modelled as `List Char` and positions as `Nat`
offsets, matching the source's zero-based string indexing. -/

/-- Characters treated as blanks by `Parser.blanks` (the Python set
`{" ", "\t", "\n"}`). -/
def isBlankChar (c : Char) : Bool := c == ' ' || c == '\t' || c == '\n'

/-- Models `unicodedata.category(c).startswith("L")` from `Parser.letter`.
The embedding restricts the source's Unicode letter class to the ASCII
letters; on ASCII input the two predicates coincide. -/
def isLetterChar (c : Char) : Bool := c.isAlpha

/-- Decimal rendering of a position, `str(pos)` in the source. -/
def natChars (n : Nat) : List Char := Nat.toDigits 10 n

/-- `Error.__format_message`: `"lambda:" + str(pos) + ": " + message`. -/
def formatMessage (pos : Nat) (message : List Char) : List Char :=
  "lambda:".data ++ natChars pos ++ ": ".data ++ message

/-- The `Error` diagnostic class.  The source object keeps only the
formatted message string; the embedding's `pos` field additionally records
the position handed to the most recent constructor call, i.e. the position
the diagnostic is at. -/
structure Err where
  pos : Nat
  message : List Char
deriving DecidableEq

/-- `Error.__init__` with a freshly formatted (non-raw) message. -/
def Err.make (pos : Nat) (message : List Char) : Err :=
  ⟨pos, formatMessage pos message⟩

/-- `Error.append_message`: a derived diagnostic whose message chains a new
formatted fragment after the existing message. -/
def Err.appendMessage (e : Err) (pos : Nat) (message : List Char) : Err :=
  ⟨pos, e.message ++ '\n' :: formatMessage pos message⟩

/-- The AST: `Variable`, `LambdaAbstraction` and `FunctionApplication`
from the source.  Identifier names are character lists. -/
inductive AstNode where
  | Variable (name : List Char)
  | LambdaAbstraction (argument : List Char) (body : AstNode)
  | FunctionApplication (left : AstNode) (right : AstNode)
deriving DecidableEq

/-- An environment maps identifier names to AST nodes; it models the Python
`dict` by its lookup function. -/
abbrev Env := List Char → Option AstNode

/-- The empty environment `{}`. -/
def envEmpty : Env := fun _ => none

/-- `env.copy()` followed by `del env[k]` (observed through lookup). -/
def envErase (env : Env) (k : List Char) : Env :=
  fun n => if n = k then none else env n

/-- `env.copy()` followed by `env[k] = v` (observed through lookup). -/
def envInsert (env : Env) (k : List Char) (v : AstNode) : Env :=
  fun n => if n = k then some v else env n

/-- The `eval` methods of the three node classes.
`Variable.eval` looks the name up and falls back to the node itself;
`LambdaAbstraction.eval` evaluates the body with the argument's binding
removed; `FunctionApplication.eval` beta-reduces when the left expression
is syntactically an abstraction (binding the unevaluated right expression)
and otherwise evaluates both sides independently. -/
def AstNode.eval : AstNode → Env → AstNode
  | .Variable name, env =>
    match env name with
    | some t => t
    | none => .Variable name
  | .LambdaAbstraction argument body, env =>
    .LambdaAbstraction argument (body.eval (envErase env argument))
  | .FunctionApplication (.LambdaAbstraction argument body) right, env =>
    body.eval (envInsert env argument right)
  | .FunctionApplication left right, env =>
    .FunctionApplication (left.eval env) (right.eval env)

/-- `AstNode._bracketed`. -/
def bracketedStr (s : List Char) : List Char := '(' :: s ++ [')']

/-- The `__str__` methods: a variable renders as its bare name, an
abstraction as `(\argument.body)`, an application as `(left right)`. -/
def AstNode.render : AstNode → List Char
  | .Variable name => name
  | .LambdaAbstraction argument body =>
    bracketedStr ('\\' :: argument ++ '.' :: body.render)
  | .FunctionApplication left right =>
    bracketedStr (left.render ++ ' ' :: right.render)

/-- Parsed values: Python's dynamically typed parse results.  A grammar
rule produces `none` (from `blanks`), a string (from `letter`,
`punctuation`, `identifier`), an AST node, or a list of sub-results (from
`sequence` and `many`). -/
inductive PValue where
  | vnone
  | vstr (s : List Char)
  | vnode (t : AstNode)
  | vlist (vs : List PValue)

/-- `results[i]` read as a string, as the source does after a `sequence`
whose component is known to be a string. -/
def PValue.getStr : PValue → List Char
  | .vstr s => s
  | _ => []

/-- A parse result read as an AST node, as the source does where the
grammar guarantees a node. -/
def PValue.getNode : PValue → AstNode
  | .vnode t => t
  | _ => .Variable []

/-- A parse result read as a list, as the source does after `sequence` or
`many`. -/
def PValue.getList : PValue → List PValue
  | .vlist vs => vs
  | _ => []

/-- A parsing function: takes a position, returns either a value or an
`Error`, together with the next position (the original position on
failure). -/
abbrev ParserT := Nat → Except Err PValue × Nat

/-- The loop body of `choice`: try each sub-parser at the same starting
position, return the first success. -/
def choiceAux : List ParserT → Nat → Except Err PValue × Nat
  | [], oldPos => (.error (Err.make oldPos "A choice parser failed.".data), oldPos)
  | p :: ps, oldPos =>
    match p oldPos with
    | (.error _, _) => choiceAux ps oldPos
    | r => r

/-- The `choice` combinator. -/
def choiceP (ps : List ParserT) : ParserT := fun oldPos => choiceAux ps oldPos

/-- The loop body of `sequence`: run sub-parsers back-to-back, threading
the position, stopping at the first failure. -/
def seqAux : List ParserT → Nat → Except Err (List PValue) × Nat
  | [], pos => (.ok [], pos)
  | p :: ps, pos =>
    match p pos with
    | (.error e, _) => (.error e, pos)
    | (.ok v, pos') =>
      match seqAux ps pos' with
      | (.error e, q) => (.error e, q)
      | (.ok vs, q) => (.ok (v :: vs), q)

/-- The `sequence` combinator: on failure it returns the failing
sub-parser's error and rewinds to the position the whole sequence began
at; on success it returns the ordered sub-results and the final
position. -/
def sequenceP (ps : List ParserT) : ParserT := fun oldPos =>
  match seqAux ps oldPos with
  | (.error e, _) => (.error e, oldPos)
  | (.ok vs, pos) => (.ok (.vlist vs), pos)

/-- The loop body of `many`: run the sub-parser repeatedly, collecting
successes, stopping (without failing) at its first failure.  The fuel
bounds the number of iterations; the grammar passes `text.length + 1`,
which the source's advancing sub-parsers can never exhaust (the source
loop is unbounded). -/
def manyAux (p : ParserT) : Nat → Nat → List PValue × Nat
  | 0, pos => ([], pos)
  | fuel + 1, pos =>
    match p pos with
    | (.error _, _) => ([], pos)
    | (.ok v, pos') =>
      match manyAux p fuel pos' with
      | (vs, q) => (v :: vs, q)

/-- The `many` combinator: always succeeds, returning the collected
results and the position after the last success. -/
def manyP (fuel : Nat) (p : ParserT) : ParserT := fun oldPos =>
  match manyAux p fuel oldPos with
  | (vs, pos) => (.ok (.vlist vs), pos)

/-- The loop of `Parser.blanks`: advance while the current character is a
blank.  The fuel `text.length - pos` covers the maximal possible run. -/
def blanksAux (text : List Char) : Nat → Nat → Nat
  | 0, pos => pos
  | fuel + 1, pos =>
    match text[pos]? with
    | some c => if isBlankChar c then blanksAux text fuel (pos + 1) else pos
    | none => pos

/-- `Parser.blanks`: consume a maximal run of blanks, always succeeding
with value `None`. -/
def blanksP (text : List Char) : ParserT := fun oldPos =>
  (.ok .vnone, blanksAux text (text.length - oldPos) oldPos)

/-- `Parser.letter`: succeed on exactly one letter character, fail without
consuming otherwise (the source guards the character access with a
remaining-length check, modelled by the optional lookup). -/
def letterP (text : List Char) : ParserT := fun oldPos =>
  match text[oldPos]? with
  | some c =>
    if isLetterChar c then (.ok (.vstr [c]), oldPos + 1)
    else (.error (Err.make oldPos "A letter is expected.".data), oldPos)
  | none => (.error (Err.make oldPos "A letter is expected.".data), oldPos)

/-- `Parser.punctuation`: skip blanks, then compare the one-character
slice at the current position against the literal token. -/
def punctuationP (text : List Char) (c : Char) : ParserT := fun oldPos =>
  let pos := (blanksP text oldPos).2
  if (text.drop pos).take 1 = [c] then (.ok (.vstr [c]), pos + 1)
  else
    (.error (Err.make oldPos ("A punctuation, \"".data ++ [c] ++ "\" is expected.".data)),
     oldPos)

/-- `Parser.identifier`: skip blanks, then one letter followed by many
letters, concatenated into the identifier string. -/
def identifierP (text : List Char) : ParserT := fun oldPos =>
  let pos0 := (blanksP text oldPos).2
  match sequenceP [letterP text, manyP (text.length + 1) (letterP text)] pos0 with
  | (.error _, _) => (.error (Err.make oldPos "An identifier is expected.".data), oldPos)
  | (.ok v, pos) =>
    (.ok (.vstr ((v.getList.headD .vnone).getStr
        ++ (((v.getList.getD 1 .vnone).getList.map PValue.getStr).flatten))), pos)

/-- `Parser.variable`: an identifier wrapped in a `Variable` node. -/
def variableP (text : List Char) : ParserT := fun oldPos =>
  match identifierP text oldPos with
  | (.error e, _) => (.error (e.appendMessage oldPos "A variable is expected.".data), oldPos)
  | (.ok v, pos) => (.ok (.vnode (.Variable v.getStr)), pos)

/-- `Parser.bracketed`: `"(" parser ")"`, returning the middle result. -/
def bracketedP (text : List Char) (p : ParserT) : ParserT := fun oldPos =>
  match sequenceP [punctuationP text '(', p, punctuationP text ')'] oldPos with
  | (.error e, _) => (.error e, oldPos)
  | (.ok v, pos) => (.ok (v.getList.getD 1 .vnone), pos)

/-- `Parser.lambda_abstraction`: `"\" identifier "."` followed by an
expression for the body; `E` is the sub-expression parser the source
builds with `self.expression()`. -/
def lambdaAbstractionP (text : List Char) (E : ParserT) : ParserT := fun oldPos =>
  match sequenceP [punctuationP text '\\', identifierP text, punctuationP text '.'] oldPos with
  | (.error e, _) =>
    (.error (e.appendMessage oldPos "A lambda abstraction is expected.".data), oldPos)
  | (.ok v, pos) =>
    match E pos with
    | (.error e, _) =>
      (.error (e.appendMessage oldPos "An expression is expected.".data), oldPos)
    | (.ok b, pos') =>
      (.ok (.vnode (.LambdaAbstraction (v.getList.getD 1 .vnone).getStr b.getNode)), pos')

/-- The `elem` alternative inside `Parser.function_applications`:
a variable, a lambda abstraction, or a bracketed expression. -/
def elemP (text : List Char) (E : ParserT) : ParserT :=
  choiceP [variableP text, lambdaAbstractionP text E, bracketedP text E]

/-- `Parser.function_applications`: two or more atoms, left-folded into
nested `FunctionApplication` nodes. -/
def functionApplicationsP (text : List Char) (E : ParserT) : ParserT := fun oldPos =>
  match sequenceP [elemP text E, elemP text E,
                   manyP (text.length + 1) (elemP text E)] oldPos with
  | (.error e, _) =>
    (.error (e.appendMessage oldPos "Function applications are expected.".data), oldPos)
  | (.ok v, pos) =>
    (.ok (.vnode (List.foldl (fun x y => AstNode.FunctionApplication x y)
        ((v.getList.headD .vnone).getNode)
        ((v.getList.getD 1 .vnone).getNode
          :: ((v.getList.getD 2 .vnone).getList.map PValue.getNode)))), pos)

/-- `Parser.term`: a function application, a variable, or a lambda
abstraction — in that priority order. -/
def termP (text : List Char) (E : ParserT) : ParserT := fun oldPos =>
  match choiceP [functionApplicationsP text E, variableP text,
                 lambdaAbstractionP text E] oldPos with
  | (.error e, _) => (.error (e.appendMessage oldPos "A term is expected.".data), oldPos)
  | (.ok v, pos) => (.ok v, pos)

/-- `Parser.expression`: a term or a bracketed expression; on failure the
source replaces the chained diagnostic with a fresh "An expression is
expected." error at the start position.  The fuel bounds the recursion
depth through `recursed` / `self.expression()`; exhaustion surfaces as the
same expression failure, and `parse` passes fuel no input can exhaust. -/
def expressionR : Nat → List Char → ParserT
  | 0, _ => fun oldPos =>
    (.error (Err.make oldPos "An expression is expected.".data), oldPos)
  | n + 1, text => fun oldPos =>
    match choiceP [termP text (expressionR n text),
                   bracketedP text (expressionR n text)] oldPos with
    | (.error _, _) =>
      (.error (Err.make oldPos "An expression is expected.".data), oldPos)
    | (.ok v, pos) => (.ok v, pos)

/-- `Parser.top_expression`: an expression followed by blanks, which must
consume the entire input. -/
def topExpressionP (text : List Char) (fuel : Nat) : ParserT := fun oldPos =>
  match sequenceP [expressionR fuel text, blanksP text] oldPos with
  | (.error e, _) => (.error e, oldPos)
  | (.ok v, pos) =>
    if pos ≠ text.length then
      (.error (Err.make oldPos ("Extra characters are detected at position, ".data
          ++ natChars pos ++ ".".data)), oldPos)
    else ((.ok (v.getList.headD .vnone)), pos)

/-- Recursion fuel handed to the grammar by `parse`: the grammar consumes
at least one character every four rule recursions, so this bound is never
reached on any input. -/
def parseFuel (text : List Char) : Nat := 8 * text.length + 16

/-- `Parser.parse`: run the top expression from position 0 and keep the
result, discarding the final position. -/
def parse (text : List Char) : Except Err PValue :=
  (topExpressionP text (parseFuel text) 0).1

/-- The loop of `interpret`: evaluate under the empty environment until
the rendering stops changing.  The fuel bounds the number of reduction
steps; `none` models the source looping beyond that bound. -/
def runLoop : Nat → AstNode → Option AstNode
  | 0, t => if (t.eval envEmpty).render = t.render then some t else none
  | fuel + 1, t =>
    if (t.eval envEmpty).render = t.render then some t
    else runLoop fuel (t.eval envEmpty)

/-- `interpret`: parse, return the diagnostic on failure, otherwise reduce
the parsed node to the driver's fixpoint. -/
def interpret (fuel : Nat) (text : List Char) : Except Err (Option AstNode) :=
  match parse text with
  | .error e => .error e
  | .ok v => .ok (runLoop fuel v.getNode)

/-- The run of a list of parsers back-to-back from a position, all
succeeding: the ordered results and the final position. -/
inductive SeqRun : List ParserT → Nat → List PValue → Nat → Prop where
  | nil (pos : Nat) : SeqRun [] pos [] pos
  | cons {p : ParserT} {ps : List ParserT} {pos pos₁ pos₂ : Nat} {v : PValue}
      {vs : List PValue} (h : p pos = (.ok v, pos₁)) (t : SeqRun ps pos₁ vs pos₂) :
      SeqRun (p :: ps) pos (v :: vs) pos₂

/-- The run of a list of parsers back-to-back from a position reaching a
first failing sub-parser, whose error is `e`. -/
inductive SeqFail : List ParserT → Nat → Err → Prop where
  | here {p : ParserT} {ps : List ParserT} {pos q : Nat} {e : Err}
      (h : p pos = (.error e, q)) : SeqFail (p :: ps) pos e
  | there {p : ParserT} {ps : List ParserT} {pos m : Nat} {v : PValue} {e : Err}
      (h : p pos = (.ok v, m)) (t : SeqFail ps m e) : SeqFail (p :: ps) pos e

/-- A name the grammar's `identifier` rule can produce: nonempty, all
letters. -/
def goodName (n : List Char) : Prop := n ≠ [] ∧ ∀ c ∈ n, isLetterChar c = true

/-- An AST whose every identifier the grammar can produce. -/
def goodAst : AstNode → Prop
  | .Variable name => goodName name
  | .LambdaAbstraction argument body => goodName argument ∧ goodAst body
  | .FunctionApplication left right => goodAst left ∧ goodAst right

/-- Expression-rule fuel sufficient to parse the rendering of a node. -/
def needFuel : AstNode → Nat
  | .Variable _ => 1
  | .LambdaAbstraction _ body => needFuel body + 3
  | .FunctionApplication left right => max (needFuel left) (needFuel right) + 3

/-- A suffix at which the grammar's atoms all fail: the end of the input
or a closing parenthesis, as rendering produces after a sub-term. -/
def stopSuffix (s : List Char) : Prop := s = [] ∨ ∃ s', s = ')' :: s'

/-- A suffix that cannot extend an identifier: empty or starting with a
non-letter. -/
def noLetterStart (s : List Char) : Prop :=
  ∀ c s', s = c :: s' → isLetterChar c = false

/-- All characters of a run are blanks. -/
def allBlank (z : List Char) : Prop := ∀ c ∈ z, isBlankChar c = true

/-- A suffix that cannot start with a blank. -/
def noBlankStart (s : List Char) : Prop :=
  ∀ c s', s = c :: s' → isBlankChar c = false

/-- A suffix at which every atom of `function_applications` fails: empty,
or starting with a character that is not a blank, not a letter, and not
one of the atom-opening punctuation marks. -/
def atomStop (s : List Char) : Prop :=
  ∀ c s', s = c :: s' →
    isBlankChar c = false ∧ isLetterChar c = false ∧ c ≠ '\\' ∧ c ≠ '('


/-- Every successful output of a parser is a well-formed AST node. -/
def GoodOut (p : ParserT) : Prop :=
  ∀ (pos : Nat) (v : PValue) (q : Nat), p pos = (.ok v, q) → ∃ t, v = .vnode t ∧ goodAst t

/-- Claim support: evaluation equations for applications, split by the
shape of the left expression. -/
theorem eval_app_abs (argument : List Char) (body right : AstNode) (env : Env) :
    (AstNode.FunctionApplication (.LambdaAbstraction argument body) right).eval env
      = body.eval (envInsert env argument right) := rfl

theorem eval_app_var (name : List Char) (right : AstNode) (env : Env) :
    (AstNode.FunctionApplication (.Variable name) right).eval env
      = .FunctionApplication ((AstNode.Variable name).eval env) (right.eval env) := rfl

theorem eval_app_app (f g right : AstNode) (env : Env) :
    (AstNode.FunctionApplication (.FunctionApplication f g) right).eval env
      = .FunctionApplication ((AstNode.FunctionApplication f g).eval env) (right.eval env) := rfl

/-- Claim C1: evaluating `Application(f, a)` under `env` performs one
beta-reduction step when `f` is syntactically an abstraction — the body is
evaluated under `env` extended with the binding of the argument name to
the unevaluated argument expression — and otherwise returns a new
application of the two sides evaluated independently. -/
theorem claim_C1 :
    (∀ (env : Env) (x : List Char) (b a : AstNode),
      (AstNode.FunctionApplication (.LambdaAbstraction x b) a).eval env
        = b.eval (envInsert env x a))
    ∧ (∀ (env : Env) (f a : AstNode),
      (∀ x b, f ≠ .LambdaAbstraction x b) →
      (AstNode.FunctionApplication f a).eval env
        = .FunctionApplication (f.eval env) (a.eval env)) := by
  refine ⟨fun env x b a => rfl, fun env f a h => ?_⟩
  cases f with
  | Variable name => rfl
  | LambdaAbstraction x b => exact absurd rfl (h x b)
  | FunctionApplication g g' => rfl

theorem claim_C1_witness :
    (AstNode.FunctionApplication (.Variable ['f']) (.Variable ['a'])).eval envEmpty
      = .FunctionApplication ((AstNode.Variable ['f']).eval envEmpty)
          ((AstNode.Variable ['a']).eval envEmpty) :=
  claim_C1.2 envEmpty (.Variable ['f']) (.Variable ['a'])
    (fun x b h => AstNode.noConfusion h)

/-- Claim C5: evaluating `Abstraction(arg, body)` under `env` returns a new
abstraction with the same argument name whose body is evaluated under `env`
with the binding for `arg` removed; in particular the removed binding
looks up to nothing, so an outer binding of the parameter's name is never
substituted into the body. -/
theorem claim_C5 (env : Env) (argument : List Char) (body : AstNode) :
    (AstNode.LambdaAbstraction argument body).eval env
      = .LambdaAbstraction argument (body.eval (envErase env argument))
    ∧ envErase env argument argument = none := by
  refine ⟨rfl, ?_⟩
  simp [envErase]

/-- Claim C6: evaluating `Variable(name)` under `env` returns the node
bound to `name` when present and the variable itself when absent; an
unbound variable is a valid result, not an error. -/
theorem claim_C6 (env : Env) (name : List Char) :
    (∀ t, env name = some t → (AstNode.Variable name).eval env = t)
    ∧ (env name = none → (AstNode.Variable name).eval env = .Variable name) := by
  constructor
  · intro t h
    simp [AstNode.eval, h]
  · intro h
    simp [AstNode.eval, h]

theorem claim_C6_witness :
    (AstNode.Variable ['x']).eval (envInsert envEmpty ['x'] (.Variable ['y']))
        = .Variable ['y']
    ∧ (AstNode.Variable ['x']).eval envEmpty = .Variable ['x'] :=
  ⟨(claim_C6 (envInsert envEmpty ['x'] (.Variable ['y'])) ['x']).1 _ rfl,
   (claim_C6 envEmpty ['x']).2 rfl⟩

/-- Claim C10: the canonical rendering is fully parenthesized — a variable
renders as its bare name, an abstraction as `(\arg.` + body + `)`, an
application as `(` + function + one space + argument + `)`. -/
theorem claim_C10 :
    (∀ name, (AstNode.Variable name).render = name)
    ∧ (∀ argument body, (AstNode.LambdaAbstraction argument body).render
        = '(' :: ('\\' :: argument ++ '.' :: body.render) ++ [')'])
    ∧ (∀ left right, (AstNode.FunctionApplication left right).render
        = '(' :: (left.render ++ ' ' :: right.render) ++ [')']) :=
  ⟨fun name => rfl, fun argument body => rfl, fun left right => rfl⟩

/-- At the fixpoint the driver's loop stops: the returned node evaluates
to something that renders identically. -/
theorem runLoop_fix (fuel : Nat) :
    ∀ t r, runLoop fuel t = some r → (r.eval envEmpty).render = r.render := by
  induction fuel with
  | zero =>
    intro t r h
    simp only [runLoop] at h
    split at h
    · cases h
      assumption
    · cases h
  | succ n ih =>
    intro t r h
    simp only [runLoop] at h
    split at h
    · cases h
      assumption
    · exact ih _ _ h

/-- Claim C2: on every input text on which the driver terminates with an
AST node, evaluating that node once more under the empty environment
renders to exactly the same string as the node itself. -/
theorem claim_C2 (fuel : Nat) (text : List Char) (r : AstNode)
    (h : interpret fuel text = .ok (some r)) :
    (r.eval envEmpty).render = r.render := by
  unfold interpret at h
  cases hp : parse text with
  | error e =>
    rw [hp] at h
    cases h
  | ok v =>
    rw [hp] at h
    exact runLoop_fix fuel v.getNode r (by injection h)

theorem claim_C2_witness :
    ((AstNode.Variable ['x']).eval envEmpty).render = (AstNode.Variable ['x']).render :=
  claim_C2 1 ['x'] (.Variable ['x']) rfl

theorem claim_C4_counterexample :
    parse "\\x x".data = .error (Err.make 0 "An expression is expected.".data)
    ∧ (Err.make 0 "An expression is expected.".data).pos ≠ 3 :=
  ⟨rfl, by simp [Err.make]⟩

theorem claim_C4 :
    parse "\\x x".data = .error (Err.make 0 "An expression is expected.".data)
    ∧ (Err.make 0 "An expression is expected.".data).pos = 0
    ∧ (∀ E : ParserT, lambdaAbstractionP "\\x x".data E 0
        = (.error ((Err.make 2 "A punctuation, \".\" is expected.".data).appendMessage 0
            "A lambda abstraction is expected.".data), 0))
    ∧ (Err.make 2 "A punctuation, \".\" is expected.".data).pos = 2 :=
  ⟨rfl, rfl, fun _ => rfl, rfl⟩

theorem seqAux_fail {ps : List ParserT} {pos : Nat} {e : Err}
    (h : SeqFail ps pos e) : ∃ q, seqAux ps pos = (.error e, q) := by
  induction h with
  | @here p ps pos pos' e h =>
    exact ⟨pos, by simp [seqAux, h]⟩
  | @there p ps pos pos₁ v e h t ih =>
    obtain ⟨q, hq⟩ := ih
    exact ⟨q, by simp [seqAux, h, hq]⟩

theorem seqAux_ok {ps : List ParserT} {pos pos' : Nat} {vs : List PValue}
    (h : SeqRun ps pos vs pos') : seqAux ps pos = (.ok vs, pos') := by
  induction h with
  | nil pos => rfl
  | cons h t ih => simp [seqAux, h, ih]

theorem claim_C7 :
    (∀ (ps : List ParserT) (pos : Nat) (e : Err),
      SeqFail ps pos e → sequenceP ps pos = (.error e, pos))
    ∧ (∀ (ps : List ParserT) (pos : Nat) (vs : List PValue) (pos' : Nat),
      SeqRun ps pos vs pos' → sequenceP ps pos = (.ok (.vlist vs), pos')) := by
  constructor
  · intro ps pos e h
    obtain ⟨q, hq⟩ := seqAux_fail h
    simp [sequenceP, hq]
  · intro ps pos vs pos' h
    simp [sequenceP, seqAux_ok h]

theorem claim_C7_witness :
    sequenceP [letterP ['a', 'b'], letterP ['a', 'b']] 0
        = (.ok (.vlist [.vstr ['a'], .vstr ['b']]), 2)
    ∧ sequenceP [letterP ['a', '.'], punctuationP ['a', '.'] ',' ] 0
        = (.error (Err.make 1 ("A punctuation, \"".data ++ [','] ++ "\" is expected.".data)), 0) :=
  ⟨claim_C7.2 _ 0 _ 2 (.cons rfl (.cons rfl (.nil 2))),
   claim_C7.1 _ 0 _ (.there (v := .vstr ['a']) (m := 1) rfl (.here (q := 1) rfl))⟩

theorem map_getNode_vnode (ts : List AstNode) :
    ts.map (PValue.getNode ∘ PValue.vnode) = ts := by
  induction ts with
  | nil => rfl
  | cons t ts ih => simp [ih, PValue.getNode]

theorem claim_C8 :
    parse "f a b c".data
      = .ok (.vnode (.FunctionApplication (.FunctionApplication
          (.FunctionApplication (.Variable ['f']) (.Variable ['a'])) (.Variable ['b']))
          (.Variable ['c'])))
    ∧ (∀ (text : List Char) (E : ParserT) (pos : Nat) (t0 t1 : AstNode)
        (ts : List AstNode) (pos' : Nat),
        sequenceP [elemP text E, elemP text E,
                   manyP (text.length + 1) (elemP text E)] pos
          = (.ok (.vlist [.vnode t0, .vnode t1, .vlist (ts.map .vnode)]), pos') →
        functionApplicationsP text E pos
          = (.ok (.vnode (List.foldl (fun x y => AstNode.FunctionApplication x y)
              t0 (t1 :: ts))), pos')) := by
  refine ⟨rfl, ?_⟩
  intro text E pos t0 t1 ts pos' h
  simp only [functionApplicationsP]
  rw [h]
  simp [PValue.getList, PValue.getNode, List.map_map, map_getNode_vnode]

theorem claim_C8_witness :
    functionApplicationsP "f a".data (expressionR 20 "f a".data) 0
      = (.ok (.vnode (.FunctionApplication (.Variable ['f']) (.Variable ['a']))), 3) :=
  claim_C8.2 "f a".data (expressionR 20 "f a".data) 0 (.Variable ['f']) (.Variable ['a'])
    [] 3 rfl

theorem claim_C9 :
    (∀ text : List Char, (∃ v, parse text = .ok v) ∨ (∃ e, parse text = .error e))
    ∧ (∀ (text : List Char) (pos : Nat), text.length ≤ pos →
        letterP text pos = (.error (Err.make pos "A letter is expected.".data), pos))
    ∧ (∀ (text : List Char) (pos : Nat), text.length ≤ pos →
        (blanksP text pos).2 = pos)
    ∧ (∀ (text : List Char) (pos : Nat) (c : Char), text.length ≤ pos →
        punctuationP text c pos
          = (.error (Err.make pos
              ("A punctuation, \"".data ++ [c] ++ "\" is expected.".data)), pos))
    ∧ parse [] = .error (Err.make 0 "An expression is expected.".data) := by
  refine ⟨?_, ?_, ?_, ?_, rfl⟩
  · intro text
    cases h : parse text with
    | error e => exact Or.inr ⟨e, rfl⟩
    | ok v => exact Or.inl ⟨v, rfl⟩
  · intro text pos h
    simp [letterP, List.getElem?_eq_none h]
  · intro text pos h
    simp [blanksP, Nat.sub_eq_zero_of_le h, blanksAux]
  · intro text pos c h
    simp [punctuationP, blanksP, Nat.sub_eq_zero_of_le h, blanksAux,
      List.drop_eq_nil_of_le h]

theorem claim_C9_witness :
    letterP ['a'] 5 = (.error (Err.make 5 "A letter is expected.".data), 5)
    ∧ (blanksP ['a'] 3).2 = 3
    ∧ punctuationP ['a'] '.' 2
        = (.error (Err.make 2 ("A punctuation, \"".data ++ ['.'] ++ "\" is expected.".data)), 2) :=
  ⟨claim_C9.2.1 ['a'] 5 (by decide), claim_C9.2.2.1 ['a'] 3 (by decide),
   claim_C9.2.2.2.1 ['a'] 2 '.' (by decide)⟩

theorem blank_cases {c : Char} (h : isBlankChar c = true) :
    c = ' ' ∨ c = '\t' ∨ c = '\n' := by
  have h1 : (c = ' ' ∨ c = '\t') ∨ c = '\n' := by simpa [isBlankChar] using h
  tauto

theorem letter_not_blank {c : Char} (h : isLetterChar c = true) :
    isBlankChar c = false := by
  by_contra hb
  rw [Bool.not_eq_false] at hb
  rcases blank_cases hb with rfl | rfl | rfl <;> exact absurd h (by decide)

theorem stop_atomStop {s : List Char} (h : stopSuffix s) : atomStop s := by
  rcases h with rfl | ⟨s', rfl⟩
  · intro c s' hc
    cases hc
  · intro c t hc
    cases hc
    refine ⟨by decide, by decide, by decide, by decide⟩

theorem stop_noLetter {s : List Char} (h : stopSuffix s) : noLetterStart s := by
  intro c s' hc
  exact ((stop_atomStop h) c s' hc).2.1

theorem atom_noBlank {s : List Char} (h : atomStop s) : noBlankStart s := by
  intro c s' hc
  exact (h c s' hc).1

theorem atom_noLetter {s : List Char} (h : atomStop s) : noLetterStart s := by
  intro c s' hc
  exact (h c s' hc).2.1

theorem drop_append_of_drop {text u v : List Char} {pos : Nat}
    (h : text.drop pos = u ++ v) : text.drop (pos + u.length) = v := by
  have h1 : text.drop (pos + u.length) = (text.drop pos).drop u.length := by
    rw [List.drop_drop, Nat.add_comm]
  rw [h1, h, List.drop_left]

theorem getElem?_of_drop {text : List Char} {pos : Nat} {c : Char} {r : List Char}
    (h : text.drop pos = c :: r) : text[pos]? = some c := by
  have h1 := List.getElem?_drop text pos 0
  rw [h] at h1
  simpa using h1.symm

theorem getElem?_none_of_drop {text : List Char} {pos : Nat}
    (h : text.drop pos = []) : text[pos]? = none := by
  have h1 := List.getElem?_drop text pos 0
  rw [h] at h1
  simpa using h1.symm

theorem len_drop_decomp {text u v : List Char} {pos : Nat}
    (h : text.drop pos = u ++ v) : u.length + v.length ≤ text.length := by
  have h1 : (text.drop pos).length = u.length + v.length := by
    rw [h, List.length_append]
  have h2 : (text.drop pos).length ≤ text.length := by
    rw [List.length_drop]
    omega
  omega

theorem choiceP_cons_err {p : ParserT} {ps : List ParserT} {pos q : Nat} {e : Err}
    (h : p pos = (.error e, q)) : choiceP (p :: ps) pos = choiceP ps pos := by
  simp [choiceP, choiceAux, h]

theorem choiceP_cons_ok {p : ParserT} {ps : List ParserT} {pos q : Nat} {v : PValue}
    (h : p pos = (.ok v, q)) : choiceP (p :: ps) pos = (.ok v, q) := by
  simp [choiceP, choiceAux, h]

theorem choiceP_nil {pos : Nat} :
    choiceP [] pos = (.error (Err.make pos "A choice parser failed.".data), pos) := rfl

theorem seqAux_cons_ok {p : ParserT} {ps : List ParserT} {pos pos₁ q : Nat}
    {v : PValue} {vs : List PValue} (h : p pos = (.ok v, pos₁))
    (h2 : seqAux ps pos₁ = (.ok vs, q)) : seqAux (p :: ps) pos = (.ok (v :: vs), q) := by
  simp [seqAux, h, h2]

theorem seqAux_cons_okerr {p : ParserT} {ps : List ParserT} {pos pos₁ q : Nat}
    {v : PValue} {e : Err} (h : p pos = (.ok v, pos₁))
    (h2 : seqAux ps pos₁ = (.error e, q)) : seqAux (p :: ps) pos = (.error e, q) := by
  simp [seqAux, h, h2]

theorem seqAux_cons_err {p : ParserT} {l : List ParserT} {pos q : Nat} {e : Err}
    (h : p pos = (.error e, q)) : seqAux (p :: l) pos = (.error e, pos) := by
  simp [seqAux, h]

theorem seqAux_nil {pos : Nat} : seqAux [] pos = (.ok [], pos) := rfl

theorem sequenceP_ok {ps : List ParserT} {pos q : Nat} {vs : List PValue}
    (h : seqAux ps pos = (.ok vs, q)) : sequenceP ps pos = (.ok (.vlist vs), q) := by
  simp [sequenceP, h]

theorem sequenceP_err {ps : List ParserT} {pos q : Nat} {e : Err}
    (h : seqAux ps pos = (.error e, q)) : sequenceP ps pos = (.error e, pos) := by
  simp [sequenceP, h]

theorem manyAux_stop {p : ParserT} {pos q : Nat} {e : Err}
    (h : p pos = (.error e, q)) : ∀ fuel, manyAux p fuel pos = ([], pos) := by
  intro fuel
  cases fuel with
  | zero => rfl
  | succ f => simp [manyAux, h]

theorem manyP_stop {p : ParserT} {pos q : Nat} {e : Err} {fuel : Nat}
    (h : p pos = (.error e, q)) : manyP fuel p pos = (.ok (.vlist []), pos) := by
  simp [manyP, manyAux_stop h fuel]

theorem blanksAux_stay {text : List Char} {pos : Nat}
    (hs : noBlankStart (text.drop pos)) : ∀ fuel, blanksAux text fuel pos = pos := by
  intro fuel
  cases fuel with
  | zero => rfl
  | succ f =>
    cases hd : text.drop pos with
    | nil => simp [blanksAux, getElem?_none_of_drop hd]
    | cons c r => simp [blanksAux, getElem?_of_drop hd, hs c r hd]

theorem blanksAux_run {text : List Char} {z r : List Char} :
    ∀ (pos fuel : Nat), allBlank z → noBlankStart r → text.drop pos = z ++ r →
    z.length ≤ fuel → blanksAux text fuel pos = pos + z.length := by
  induction z with
  | nil =>
    intro pos fuel _ hr h _
    have : text.drop pos = r := by simpa using h
    simpa using blanksAux_stay (this ▸ hr) fuel
  | cons c z ih =>
    intro pos fuel hsp hr h hf
    rw [List.length_cons] at hf
    obtain ⟨f, rfl⟩ : ∃ f, fuel = f + 1 := ⟨fuel - 1, by omega⟩
    have hd : text.drop pos = c :: (z ++ r) := by simpa using h
    have hc : isBlankChar c = true := hsp c (by simp)
    have h' : text.drop (pos + 1) = z ++ r := by
      have := drop_append_of_drop (u := [c]) (v := z ++ r) (by simpa using hd)
      simpa using this
    have hrec := ih (pos + 1) f (fun d hdm => hsp d (List.mem_cons_of_mem _ hdm)) hr h'
      (by omega)
    simp only [blanksAux, getElem?_of_drop hd, hc, if_true]
    rw [hrec]
    simp only [List.length_cons]
    omega

theorem blanksP_run {text z r : List Char} {pos : Nat} (hsp : allBlank z)
    (hr : noBlankStart r) (h : text.drop pos = z ++ r) :
    blanksP text pos = (.ok .vnone, pos + z.length) := by
  have hf : z.length ≤ text.length - pos := by
    have h1 := len_drop_decomp h
    have h2 : (text.drop pos).length = text.length - pos := List.length_drop pos text
    have h3 : (text.drop pos).length = z.length + r.length := by
      rw [h, List.length_append]
    omega
  simp only [blanksP]
  rw [blanksAux_run pos (text.length - pos) hsp hr h hf]

theorem letterP_ok {text : List Char} {pos : Nat} {c : Char} {r : List Char}
    (h : text.drop pos = c :: r) (hc : isLetterChar c = true) :
    letterP text pos = (.ok (.vstr [c]), pos + 1) := by
  simp [letterP, getElem?_of_drop h, hc]

theorem letterP_fail {text : List Char} {pos : Nat}
    (hs : noLetterStart (text.drop pos)) :
    letterP text pos = (.error (Err.make pos "A letter is expected.".data), pos) := by
  cases hd : text.drop pos with
  | nil => simp [letterP, getElem?_none_of_drop hd]
  | cons c r => simp [letterP, getElem?_of_drop hd, hs c r hd]

theorem manyAux_letters {text : List Char} {xs s : List Char} :
    ∀ (pos fuel : Nat), (∀ c ∈ xs, isLetterChar c = true) → noLetterStart s →
    text.drop pos = xs ++ s → xs.length ≤ fuel →
    manyAux (letterP text) fuel pos = (xs.map (fun c => .vstr [c]), pos + xs.length) := by
  induction xs with
  | nil =>
    intro pos fuel _ hs h _
    have hd : text.drop pos = s := by simpa using h
    cases fuel with
    | zero => simp [manyAux]
    | succ f => simp [manyAux, letterP_fail (hd ▸ hs)]
  | cons c cs ih =>
    intro pos fuel hxs hs h hf
    rw [List.length_cons] at hf
    obtain ⟨f, rfl⟩ : ∃ f, fuel = f + 1 := ⟨fuel - 1, by omega⟩
    have hd : text.drop pos = c :: (cs ++ s) := by simpa using h
    have h' : text.drop (pos + 1) = cs ++ s := by
      have := drop_append_of_drop (u := [c]) (v := cs ++ s) (by simpa using hd)
      simpa using this
    simp only [manyAux, letterP_ok hd (hxs c (by simp))]
    rw [ih (pos + 1) f (fun d hdm => hxs d (List.mem_cons_of_mem _ hdm)) hs h'
      (by omega)]
    simp only [List.map_cons, List.length_cons]
    rw [show pos + 1 + cs.length = pos + (cs.length + 1) from by omega]

theorem map_getStr_singletons (cs : List Char) :
    (cs.map (PValue.getStr ∘ fun d => PValue.vstr [d])).flatten = cs := by
  induction cs with
  | nil => rfl
  | cons c cs ih => simp [Function.comp, PValue.getStr] at ih ⊢; simp [ih]

theorem punctuationP_ok {text z r : List Char} {pos : Nat} {c : Char}
    (hsp : allBlank z) (hc : isBlankChar c = false)
    (h : text.drop pos = z ++ c :: r) :
    punctuationP text c pos = (.ok (.vstr [c]), pos + z.length + 1) := by
  have hnb : noBlankStart (c :: r) := by
    intro d s' hd
    injection hd with h1 h2
    subst h1
    exact hc
  have hb : blanksP text pos = (.ok .vnone, pos + z.length) := blanksP_run hsp hnb h
  have hdrop : text.drop (pos + z.length) = c :: r := drop_append_of_drop h
  simp only [punctuationP, hb]
  rw [hdrop]
  simp

theorem punctuationP_fail {text z s : List Char} {pos : Nat} {c : Char}
    (hsp : allBlank z) (hnb : noBlankStart s) (h : text.drop pos = z ++ s)
    (hne : ∀ d s', s = d :: s' → d ≠ c) :
    punctuationP text c pos
      = (.error (Err.make pos
          ("A punctuation, \"".data ++ [c] ++ "\" is expected.".data)), pos) := by
  have hb : blanksP text pos = (.ok .vnone, pos + z.length) := blanksP_run hsp hnb h
  have hdrop : text.drop (pos + z.length) = s := drop_append_of_drop h
  simp only [punctuationP, hb]
  rw [hdrop]
  cases s with
  | nil => simp
  | cons d s' => simp [hne d s' rfl]

theorem identifierP_ok {text z w s : List Char} {pos : Nat}
    (hsp : allBlank z) (hname : goodName w) (hnl : noLetterStart s)
    (h : text.drop pos = z ++ w ++ s) :
    identifierP text pos = (.ok (.vstr w), pos + z.length + w.length) := by
  obtain ⟨hne, hall⟩ := hname
  cases w with
  | nil => exact absurd rfl hne
  | cons c cs =>
  rw [List.append_assoc] at h
  have hnb : noBlankStart ((c :: cs) ++ s) := by
    intro d s' hd
    injection hd with h1 _
    subst h1
    exact letter_not_blank (hall c (by simp))
  have hb : blanksP text pos = (.ok .vnone, pos + z.length) := blanksP_run hsp hnb h
  have hd0 : text.drop (pos + z.length) = c :: (cs ++ s) := by
    simpa using drop_append_of_drop h
  have hlet : letterP text (pos + z.length)
      = (.ok (.vstr [c]), pos + z.length + 1) := letterP_ok hd0 (hall c (by simp))
  have hd1 : text.drop (pos + z.length + 1) = cs ++ s := by
    have := drop_append_of_drop (u := [c]) (v := cs ++ s) (by simpa using hd0)
    simpa using this
  have hcs : cs.length ≤ text.length + 1 := by
    have := len_drop_decomp hd1
    omega
  have hmany : manyP (text.length + 1) (letterP text) (pos + z.length + 1)
      = (.ok (.vlist (cs.map (fun d => .vstr [d]))), pos + z.length + 1 + cs.length) := by
    simp only [manyP,
      manyAux_letters (pos + z.length + 1) (text.length + 1)
        (fun d hdm => hall d (by simp [hdm])) hnl hd1 hcs]
  have hseq : seqAux [letterP text, manyP (text.length + 1) (letterP text)] (pos + z.length)
      = (.ok [.vstr [c], .vlist (cs.map (fun d => .vstr [d]))], pos + z.length + 1 + cs.length) :=
    seqAux_cons_ok hlet (seqAux_cons_ok hmany rfl)
  have hseqP := sequenceP_ok hseq
  simp only [identifierP, hb]
  rw [hseqP]
  simp only [PValue.getList, PValue.getStr, List.getD, List.headD, List.get?,
    map_getStr_singletons, List.length_cons]
  rw [show pos + z.length + 1 + cs.length = pos + z.length + (cs.length + 1) from by omega]
  simp
  exact map_getStr_singletons cs

theorem identifierP_fail {text z s : List Char} {pos : Nat}
    (hsp : allBlank z) (hnb : noBlankStart s) (hnl : noLetterStart s)
    (h : text.drop pos = z ++ s) :
    identifierP text pos
      = (.error (Err.make pos "An identifier is expected.".data), pos) := by
  have hb : blanksP text pos = (.ok .vnone, pos + z.length) := blanksP_run hsp hnb h
  have hdrop : text.drop (pos + z.length) = s := drop_append_of_drop h
  have hlet : letterP text (pos + z.length)
      = (.error (Err.make (pos + z.length) "A letter is expected.".data), pos + z.length) :=
    letterP_fail (hdrop ▸ hnl)
  have hseq := seqAux_cons_err (l := [manyP (text.length + 1) (letterP text)]) hlet
  have hseqP := sequenceP_err hseq
  simp only [identifierP, hb]
  rw [hseqP]

theorem variableP_ok {text z name s : List Char} {pos : Nat}
    (hsp : allBlank z) (hname : goodName name) (hnl : noLetterStart s)
    (h : text.drop pos = z ++ name ++ s) :
    variableP text pos = (.ok (.vnode (.Variable name)), pos + z.length + name.length) := by
  simp only [variableP, identifierP_ok hsp hname hnl h]
  simp [PValue.getStr]

theorem variableP_fail {text z s : List Char} {pos : Nat}
    (hsp : allBlank z) (hnb : noBlankStart s) (hnl : noLetterStart s)
    (h : text.drop pos = z ++ s) :
    variableP text pos
      = (.error ((Err.make pos "An identifier is expected.".data).appendMessage pos
          "A variable is expected.".data), pos) := by
  simp only [variableP, identifierP_fail hsp hnb hnl h]

theorem allBlank_nil : allBlank [] := by
  intro c hc
  simp at hc

theorem allBlank_space : allBlank [' '] := by
  intro c hc
  simp at hc
  subst hc
  decide

theorem lambdaAbstractionP_fail {text z s : List Char} {pos : Nat} {E : ParserT}
    (hsp : allBlank z) (hnb : noBlankStart s) (h : text.drop pos = z ++ s)
    (hne : ∀ d s', s = d :: s' → d ≠ '\\') :
    lambdaAbstractionP text E pos
      = (.error ((Err.make pos
          ("A punctuation, \"".data ++ ['\\'] ++ "\" is expected.".data)).appendMessage pos
          "A lambda abstraction is expected.".data), pos) := by
  have hp := punctuationP_fail (c := '\\') hsp hnb h hne
  have hseqP := sequenceP_err
    (seqAux_cons_err (l := [identifierP text, punctuationP text '.']) hp)
  simp only [lambdaAbstractionP, hseqP]

theorem bracketedP_fail {text z s : List Char} {pos : Nat} {p : ParserT}
    (hsp : allBlank z) (hnb : noBlankStart s) (h : text.drop pos = z ++ s)
    (hne : ∀ d s', s = d :: s' → d ≠ '(') :
    bracketedP text p pos
      = (.error (Err.make pos
          ("A punctuation, \"".data ++ ['('] ++ "\" is expected.".data)), pos) := by
  have hp := punctuationP_fail (c := '(') hsp hnb h hne
  have hseqP := sequenceP_err (seqAux_cons_err (l := [p, punctuationP text ')']) hp)
  simp only [bracketedP, hseqP]

theorem elemP_fail {text s : List Char} {pos : Nat} {E : ParserT}
    (h : text.drop pos = s) (hs : atomStop s) :
    elemP text E pos = (.error (Err.make pos "A choice parser failed.".data), pos) := by
  have h0 : text.drop pos = [] ++ s := by simpa using h
  have hv := variableP_fail allBlank_nil (atom_noBlank hs) (atom_noLetter hs) h0
  have hl := lambdaAbstractionP_fail (E := E) allBlank_nil (atom_noBlank hs) h0
    (fun d s' hd => (hs d s' hd).2.2.1)
  have hb := bracketedP_fail (p := E) allBlank_nil (atom_noBlank hs) h0
    (fun d s' hd => (hs d s' hd).2.2.2)
  rw [elemP, choiceP_cons_err hv, choiceP_cons_err hl, choiceP_cons_err hb, choiceP_nil]

theorem bracketedP_ok {text z inner s : List Char} {pos : Nat} {p : ParserT} {v : PValue}
    (hsp : allBlank z) (h : text.drop pos = z ++ '(' :: inner ++ ')' :: s)
    (hp : p (pos + z.length + 1) = (.ok v, pos + z.length + 1 + inner.length)) :
    bracketedP text p pos = (.ok v, pos + z.length + 1 + inner.length + 1) := by
  have hA : text.drop pos = z ++ '(' :: (inner ++ ')' :: s) := by
    simpa using h
  have ho : punctuationP text '(' pos = (.ok (.vstr ['(']), pos + z.length + 1) :=
    punctuationP_ok hsp (by decide) hA
  have hd1 : text.drop (pos + z.length) = '(' :: (inner ++ ')' :: s) :=
    drop_append_of_drop hA
  have hd2 : text.drop (pos + z.length + 1) = inner ++ ')' :: s := by
    have := drop_append_of_drop (u := ['(']) (v := inner ++ ')' :: s) (by simpa using hd1)
    simpa using this
  have hd3 : text.drop (pos + z.length + 1 + inner.length) = ')' :: s :=
    drop_append_of_drop hd2
  have hc : punctuationP text ')' (pos + z.length + 1 + inner.length)
      = (.ok (.vstr [')']), pos + z.length + 1 + inner.length + 1) := by
    have := punctuationP_ok (z := []) (c := ')') (r := s) allBlank_nil (by decide)
      (by simpa using hd3)
    simpa using this
  have hseqP := sequenceP_ok (seqAux_cons_ok ho (seqAux_cons_ok hp (seqAux_cons_ok hc seqAux_nil)))
  simp only [bracketedP, hseqP]
  simp [PValue.getList]

theorem lambdaAbstractionP_ok {text z x s : List Char} {b : AstNode} {pos : Nat}
    {E : ParserT} (hsp : allBlank z) (hx : goodName x)
    (h : text.drop pos = z ++ '\\' :: x ++ '.' :: b.render ++ s)
    (hexpr : E (pos + z.length + 1 + x.length + 1)
      = (.ok (.vnode b), pos + z.length + 1 + x.length + 1 + b.render.length)) :
    lambdaAbstractionP text E pos
      = (.ok (.vnode (.LambdaAbstraction x b)),
         pos + z.length + 1 + x.length + 1 + b.render.length) := by
  have hA : text.drop pos = z ++ '\\' :: (x ++ '.' :: b.render ++ s) := by
    simpa using h
  have hp1 : punctuationP text '\\' pos = (.ok (.vstr ['\\']), pos + z.length + 1) :=
    punctuationP_ok hsp (by decide) hA
  have hd1 : text.drop (pos + z.length) = '\\' :: (x ++ '.' :: b.render ++ s) :=
    drop_append_of_drop hA
  have hd2 : text.drop (pos + z.length + 1) = x ++ '.' :: (b.render ++ s) := by
    have := drop_append_of_drop (u := ['\\']) (v := x ++ '.' :: b.render ++ s)
      (by simpa using hd1)
    simpa using this
  have hid : identifierP text (pos + z.length + 1)
      = (.ok (.vstr x), pos + z.length + 1 + x.length) := by
    have := identifierP_ok (z := []) (w := x) (s := '.' :: (b.render ++ s)) allBlank_nil hx
      (fun d s' hd => by injection hd with h1 _; subst h1; decide) (by simpa using hd2)
    simpa using this
  have hd3 : text.drop (pos + z.length + 1 + x.length) = '.' :: (b.render ++ s) :=
    drop_append_of_drop hd2
  have hp2 : punctuationP text '.' (pos + z.length + 1 + x.length)
      = (.ok (.vstr ['.']), pos + z.length + 1 + x.length + 1) := by
    have := punctuationP_ok (z := []) (c := '.') (r := b.render ++ s) allBlank_nil (by decide)
      (by simpa using hd3)
    simpa using this
  have hseqP := sequenceP_ok
    (seqAux_cons_ok hp1 (seqAux_cons_ok hid (seqAux_cons_ok hp2 seqAux_nil)))
  simp only [lambdaAbstractionP, hseqP, hexpr]
  simp [PValue.getList, PValue.getStr, PValue.getNode]

theorem elemP_var {text z name s : List Char} {pos : Nat} {E : ParserT}
    (hsp : allBlank z) (hname : goodName name) (hnl : noLetterStart s)
    (h : text.drop pos = z ++ name ++ s) :
    elemP text E pos = (.ok (.vnode (.Variable name)), pos + z.length + name.length) := by
  rw [elemP]
  exact choiceP_cons_ok (variableP_ok hsp hname hnl h)

theorem head_not_letter_blank {c : Char} {r : List Char}
    (hc : isLetterChar c = false) (hb : isBlankChar c = false) :
    noLetterStart (c :: r) ∧ noBlankStart (c :: r) :=
  ⟨fun d s' hd => by injection hd with h1 _; subst h1; exact hc,
   fun d s' hd => by injection hd with h1 _; subst h1; exact hb⟩

theorem elemP_brack {text z inner s : List Char} {pos : Nat} {E : ParserT} {v : PValue}
    (hsp : allBlank z) (h : text.drop pos = z ++ '(' :: inner ++ ')' :: s)
    (hexpr : E (pos + z.length + 1) = (.ok v, pos + z.length + 1 + inner.length)) :
    elemP text E pos = (.ok v, pos + z.length + 1 + inner.length + 1) := by
  obtain ⟨hnl, hnb⟩ := head_not_letter_blank (c := '(')
    (r := inner ++ ')' :: s) (by decide) (by decide)
  have hA : text.drop pos = z ++ '(' :: (inner ++ ')' :: s) := by
    simpa using h
  have hv := variableP_fail hsp hnb hnl hA
  have hl := lambdaAbstractionP_fail (E := E) hsp hnb hA
    (fun d s' hd => by injection hd with h1 _; subst h1; decide)
  rw [elemP, choiceP_cons_err hv, choiceP_cons_err hl]
  exact choiceP_cons_ok (bracketedP_ok hsp h hexpr)

theorem elemP_lambda {text z x s : List Char} {b : AstNode} {pos : Nat} {E : ParserT}
    (hsp : allBlank z) (hx : goodName x)
    (h : text.drop pos = z ++ '\\' :: x ++ '.' :: b.render ++ s)
    (hexpr : E (pos + z.length + 1 + x.length + 1)
      = (.ok (.vnode b), pos + z.length + 1 + x.length + 1 + b.render.length)) :
    elemP text E pos
      = (.ok (.vnode (.LambdaAbstraction x b)),
         pos + z.length + 1 + x.length + 1 + b.render.length) := by
  obtain ⟨hnl, hnb⟩ := head_not_letter_blank (c := '\\')
    (r := x ++ '.' :: b.render ++ s) (by decide) (by decide)
  have hA : text.drop pos = z ++ '\\' :: (x ++ '.' :: b.render ++ s) := by
    simpa using h
  have hv := variableP_fail hsp hnb hnl hA
  rw [elemP, choiceP_cons_err hv]
  exact choiceP_cons_ok (lambdaAbstractionP_ok hsp hx h hexpr)

theorem functionApplicationsP_ok2 {text : List Char} {E : ParserT} {F A : AstNode}
    {pos p1 p2 q : Nat} {e : Err}
    (h1 : elemP text E pos = (.ok (.vnode F), p1))
    (h2 : elemP text E p1 = (.ok (.vnode A), p2))
    (h3 : elemP text E p2 = (.error e, q)) :
    functionApplicationsP text E pos
      = (.ok (.vnode (.FunctionApplication F A)), p2) := by
  have hm : manyP (text.length + 1) (elemP text E) p2 = (.ok (.vlist []), p2) :=
    manyP_stop h3
  have hseqP := sequenceP_ok
    (seqAux_cons_ok h1 (seqAux_cons_ok h2 (seqAux_cons_ok hm seqAux_nil)))
  simp only [functionApplicationsP, hseqP]
  simp [PValue.getList, PValue.getNode]

theorem functionApplicationsP_fail2 {text : List Char} {E : ParserT}
    {pos p1 q : Nat} {v : PValue} {e : Err}
    (h1 : elemP text E pos = (.ok v, p1)) (h2 : elemP text E p1 = (.error e, q)) :
    functionApplicationsP text E pos
      = (.error (e.appendMessage pos "Function applications are expected.".data), pos) := by
  have hseqP := sequenceP_err
    (seqAux_cons_okerr h1 (seqAux_cons_err (l := [manyP (text.length + 1) (elemP text E)]) h2))
  simp only [functionApplicationsP, hseqP]

theorem termP_ok1 {text : List Char} {E : ParserT} {pos q : Nat} {v : PValue}
    (hfa : functionApplicationsP text E pos = (.ok v, q)) :
    termP text E pos = (.ok v, q) := by
  simp only [termP]
  rw [choiceP_cons_ok hfa]

theorem termP_ok2 {text : List Char} {E : ParserT} {pos q q0 : Nat} {v : PValue} {e : Err}
    (hfa : functionApplicationsP text E pos = (.error e, q0))
    (hv : variableP text pos = (.ok v, q)) :
    termP text E pos = (.ok v, q) := by
  simp only [termP]
  rw [choiceP_cons_err hfa, choiceP_cons_ok hv]

theorem termP_ok3 {text : List Char} {E : ParserT} {pos q q0 q1 : Nat} {v : PValue}
    {e e1 : Err}
    (hfa : functionApplicationsP text E pos = (.error e, q0))
    (hv : variableP text pos = (.error e1, q1))
    (hl : lambdaAbstractionP text E pos = (.ok v, q)) :
    termP text E pos = (.ok v, q) := by
  simp only [termP]
  rw [choiceP_cons_err hfa, choiceP_cons_err hv, choiceP_cons_ok hl]

theorem termP_fail {text : List Char} {E : ParserT} {pos q0 q1 q2 : Nat} {e e1 e2 : Err}
    (hfa : functionApplicationsP text E pos = (.error e, q0))
    (hv : variableP text pos = (.error e1, q1))
    (hl : lambdaAbstractionP text E pos = (.error e2, q2)) :
    termP text E pos
      = (.error ((Err.make pos "A choice parser failed.".data).appendMessage pos
          "A term is expected.".data), pos) := by
  simp only [termP]
  rw [choiceP_cons_err hfa, choiceP_cons_err hv, choiceP_cons_err hl, choiceP_nil]

theorem expressionR_succ_term_ok {n : Nat} {text : List Char} {pos q : Nat} {v : PValue}
    (ht : termP text (expressionR n text) pos = (.ok v, q)) :
    expressionR (n + 1) text pos = (.ok v, q) := by
  simp only [expressionR]
  rw [choiceP_cons_ok ht]

theorem expressionR_succ_brack_ok {n : Nat} {text : List Char} {pos q q0 : Nat} {v : PValue}
    {e : Err} (ht : termP text (expressionR n text) pos = (.error e, q0))
    (hb : bracketedP text (expressionR n text) pos = (.ok v, q)) :
    expressionR (n + 1) text pos = (.ok v, q) := by
  simp only [expressionR]
  rw [choiceP_cons_err ht, choiceP_cons_ok hb]

theorem render_abs_append (x : List Char) (b : AstNode) (s : List Char) :
    (AstNode.LambdaAbstraction x b).render ++ s
      = '(' :: (('\\' :: x ++ '.' :: b.render) ++ (')' :: s)) := by
  simp [AstNode.render, bracketedStr]

theorem render_app_append (F A : AstNode) (s : List Char) :
    (AstNode.FunctionApplication F A).render ++ s
      = '(' :: ((F.render ++ ' ' :: A.render) ++ (')' :: s)) := by
  simp [AstNode.render, bracketedStr]

theorem render_abs_length (x : List Char) (b : AstNode) :
    (AstNode.LambdaAbstraction x b).render.length = x.length + b.render.length + 4 := by
  simp [AstNode.render, bracketedStr]
  omega

theorem render_app_length (F A : AstNode) :
    (AstNode.FunctionApplication F A).render.length
      = F.render.length + A.render.length + 3 := by
  simp [AstNode.render, bracketedStr]
  omega

theorem exprOk_var {name s : List Char} {n : Nat} {text : List Char} {pos : Nat}
    (hname : goodName name) (hn : 1 ≤ n) (h : text.drop pos = name ++ s)
    (hs : stopSuffix s) :
    expressionR n text pos = (.ok (.vnode (.Variable name)), pos + name.length) := by
  obtain ⟨m, rfl⟩ : ∃ m, n = m + 1 := ⟨n - 1, by omega⟩
  have h0 : text.drop pos = [] ++ name ++ s := by simpa using h
  have he1 : elemP text (expressionR m text) pos
      = (.ok (.vnode (.Variable name)), pos + name.length) := by
    have := elemP_var (E := expressionR m text) allBlank_nil hname (stop_noLetter hs) h0
    simpa using this
  have hd2 : text.drop (pos + name.length) = s := drop_append_of_drop h
  have he2 := elemP_fail (E := expressionR m text) hd2 (stop_atomStop hs)
  have hfa := functionApplicationsP_fail2 he1 he2
  have hv : variableP text pos = (.ok (.vnode (.Variable name)), pos + name.length) := by
    have := variableP_ok allBlank_nil hname (stop_noLetter hs) h0
    simpa using this
  exact expressionR_succ_term_ok (termP_ok2 hfa hv)

theorem exprOk_absInner {x s : List Char} {b : AstNode} {m : Nat} {text : List Char}
    {pos : Nat} (hx : goodName x)
    (hb : ∀ (k pos' : Nat) (s' : List Char), needFuel b ≤ k →
      text.drop pos' = b.render ++ s' → stopSuffix s' →
      expressionR k text pos' = (.ok (.vnode b), pos' + b.render.length))
    (hm : needFuel b + 1 ≤ m)
    (h : text.drop pos = '\\' :: (x ++ '.' :: (b.render ++ s))) (hs : stopSuffix s) :
    expressionR m text pos
      = (.ok (.vnode (.LambdaAbstraction x b)),
         pos + x.length + b.render.length + 2) := by
  obtain ⟨k, rfl⟩ : ∃ k, m = k + 1 := ⟨m - 1, by omega⟩
  have hd1 : text.drop (pos + 1) = x ++ '.' :: (b.render ++ s) := by
    have := drop_append_of_drop (u := ['\\']) (v := x ++ '.' :: (b.render ++ s))
      (by simpa using h)
    simpa using this
  have hd2 : text.drop (pos + 1 + x.length) = '.' :: (b.render ++ s) :=
    drop_append_of_drop hd1
  have hd3 : text.drop (pos + 1 + x.length + 1) = b.render ++ s := by
    have := drop_append_of_drop (u := ['.']) (v := b.render ++ s) (by simpa using hd2)
    simpa using this
  have hbody := hb k (pos + 1 + x.length + 1) s (by omega) hd3 hs
  have hlam : lambdaAbstractionP text (expressionR k text) pos
      = (.ok (.vnode (.LambdaAbstraction x b)), pos + 1 + x.length + 1 + b.render.length) := by
    have := lambdaAbstractionP_ok (z := []) (E := expressionR k text) allBlank_nil hx
      (by simpa using h) (by simpa using hbody)
    simpa using this
  have he1 : elemP text (expressionR k text) pos
      = (.ok (.vnode (.LambdaAbstraction x b)), pos + 1 + x.length + 1 + b.render.length) := by
    have := elemP_lambda (z := []) (E := expressionR k text) allBlank_nil hx
      (by simpa using h) (by simpa using hbody)
    simpa using this
  have hd4 : text.drop (pos + 1 + x.length + 1 + b.render.length) = s :=
    drop_append_of_drop hd3
  have he2 := elemP_fail (E := expressionR k text) hd4 (stop_atomStop hs)
  have hfa := functionApplicationsP_fail2 he1 he2
  obtain ⟨hnl, hnb⟩ := head_not_letter_blank (c := '\\')
    (r := x ++ '.' :: (b.render ++ s)) (by decide) (by decide)
  have hv := variableP_fail (z := []) allBlank_nil hnb hnl (by simpa using h)
  have ht := termP_ok3 hfa hv hlam
  have hres := expressionR_succ_term_ok ht
  rw [show pos + x.length + b.render.length + 2 = pos + 1 + x.length + 1 + b.render.length
    from by omega]
  exact hres

theorem exprOk_appInner {F A : AstNode} {m : Nat} {text : List Char} {pos : Nat}
    {s : List Char}
    (hF : ∀ (k pos' : Nat) (z s' : List Char), needFuel F ≤ k + 1 →
      text.drop pos' = z ++ F.render ++ s' → allBlank z → noLetterStart s' →
      elemP text (expressionR k text) pos' = (.ok (.vnode F), pos' + z.length + F.render.length))
    (hA : ∀ (k pos' : Nat) (z s' : List Char), needFuel A ≤ k + 1 →
      text.drop pos' = z ++ A.render ++ s' → allBlank z → noLetterStart s' →
      elemP text (expressionR k text) pos' = (.ok (.vnode A), pos' + z.length + A.render.length))
    (hm : max (needFuel F) (needFuel A) + 1 ≤ m)
    (h : text.drop pos = F.render ++ (' ' :: (A.render ++ s))) (hs : stopSuffix s) :
    expressionR m text pos
      = (.ok (.vnode (.FunctionApplication F A)),
         pos + F.render.length + A.render.length + 1) := by
  obtain ⟨k, rfl⟩ : ∃ k, m = k + 1 := ⟨m - 1, by omega⟩
  have he1 : elemP text (expressionR k text) pos = (.ok (.vnode F), pos + F.render.length) := by
    have := hF k pos [] (' ' :: (A.render ++ s)) (by omega) (by simpa using h) allBlank_nil
      (fun d s' hd => by injection hd with h1 _; subst h1; decide)
    simpa using this
  have hd1 : text.drop (pos + F.render.length) = [' '] ++ A.render ++ s := by
    have := drop_append_of_drop h
    simpa using this
  have he2 : elemP text (expressionR k text) (pos + F.render.length)
      = (.ok (.vnode A), pos + F.render.length + 1 + A.render.length) := by
    have := hA k (pos + F.render.length) [' '] s (by omega) hd1 allBlank_space
      (stop_noLetter hs)
    simpa using this
  have hx1 : text.drop (pos + F.render.length + 1) = A.render ++ s := by
    have := drop_append_of_drop (u := [' ']) (v := A.render ++ s)
      (by simpa using drop_append_of_drop h)
    simpa using this
  have hd2 : text.drop (pos + F.render.length + 1 + A.render.length) = s :=
    drop_append_of_drop hx1
  have he3 := elemP_fail (E := expressionR k text) hd2 (stop_atomStop hs)
  have hfa := functionApplicationsP_ok2 he1 he2 he3
  have hres := expressionR_succ_term_ok (termP_ok1 hfa)
  rw [show pos + F.render.length + A.render.length + 1
      = pos + F.render.length + 1 + A.render.length from by omega]
  exact hres

theorem exprOk_brack {t : AstNode} {inner s : List Char} {k : Nat} {text : List Char}
    {pos : Nat} (h : text.drop pos = '(' :: (inner ++ (')' :: s))) (hs : stopSuffix s)
    (hInner : expressionR k text (pos + 1) = (.ok (.vnode t), pos + 1 + inner.length)) :
    expressionR (k + 1) text pos = (.ok (.vnode t), pos + inner.length + 2) := by
  have he1 : elemP text (expressionR k text) pos
      = (.ok (.vnode t), pos + 1 + inner.length + 1) := by
    have := elemP_brack (z := []) (E := expressionR k text) allBlank_nil
      (by simpa using h) (by simpa using hInner)
    simpa using this
  have hd1 : text.drop (pos + 1) = inner ++ (')' :: s) := by
    have := drop_append_of_drop (u := ['(']) (v := inner ++ (')' :: s)) (by simpa using h)
    simpa using this
  have hd2 : text.drop (pos + 1 + inner.length) = ')' :: s := drop_append_of_drop hd1
  have hd3 : text.drop (pos + 1 + inner.length + 1) = s := by
    have := drop_append_of_drop (u := [')']) (v := s) (by simpa using hd2)
    simpa using this
  have he2 := elemP_fail (E := expressionR k text) hd3 (stop_atomStop hs)
  have hfa := functionApplicationsP_fail2 he1 he2
  obtain ⟨hnl, hnb⟩ := head_not_letter_blank (c := '(') (r := inner ++ (')' :: s))
    (by decide) (by decide)
  have hv := variableP_fail (z := []) allBlank_nil hnb hnl (by simpa using h)
  have hl := lambdaAbstractionP_fail (z := []) (E := expressionR k text) allBlank_nil hnb
    (by simpa using h) (fun d s' hd => by injection hd with h1 _; subst h1; decide)
  have ht := termP_fail hfa hv hl
  have hbr : bracketedP text (expressionR k text) pos
      = (.ok (.vnode t), pos + 1 + inner.length + 1) := by
    have := bracketedP_ok (z := []) (p := expressionR k text) allBlank_nil
      (by simpa using h) (by simpa using hInner)
    simpa using this
  have hres := expressionR_succ_brack_ok ht hbr
  rw [show pos + inner.length + 2 = pos + 1 + inner.length + 1 from by omega]
  exact hres

theorem renderParses (a : AstNode) : goodAst a →
    (∀ (k : Nat) (text : List Char) (pos : Nat) (z s : List Char), needFuel a ≤ k + 1 →
      text.drop pos = z ++ a.render ++ s → allBlank z → noLetterStart s →
      elemP text (expressionR k text) pos
        = (.ok (.vnode a), pos + z.length + a.render.length))
    ∧ (∀ (n : Nat) (text : List Char) (pos : Nat) (s : List Char), needFuel a ≤ n →
      text.drop pos = a.render ++ s → stopSuffix s →
      expressionR n text pos = (.ok (.vnode a), pos + a.render.length)) := by
  induction a with
  | Variable name =>
    intro hg
    refine ⟨?_, ?_⟩
    · intro k text pos z s hk h hsp hnl
      exact elemP_var hsp hg hnl h
    · intro n text pos s hn h hs
      have hn1 : 1 ≤ n := by simpa [needFuel] using hn
      exact exprOk_var hg hn1 h hs
  | LambdaAbstraction x b ihb =>
    intro hg
    obtain ⟨hx, hgb⟩ := hg
    obtain ⟨ihbE, ihbX⟩ := ihb hgb
    have hlen : ('\\' :: x ++ '.' :: b.render).length = x.length + b.render.length + 2 := by
      simp
      omega
    refine ⟨?_, ?_⟩
    · intro k text pos z s hk h hsp hnl
      rw [needFuel] at hk
      have h' : text.drop pos
          = z ++ '(' :: (('\\' :: x ++ '.' :: b.render) ++ (')' :: s)) := by
        simpa [AstNode.render, bracketedStr] using h
      have hd0 : text.drop (pos + z.length)
          = '(' :: (('\\' :: x ++ '.' :: b.render) ++ (')' :: s)) :=
        drop_append_of_drop h'
      have hdI : text.drop (pos + z.length + 1)
          = '\\' :: (x ++ '.' :: (b.render ++ (')' :: s))) := by
        have := drop_append_of_drop (u := ['('])
          (v := ('\\' :: x ++ '.' :: b.render) ++ (')' :: s)) (by simpa using hd0)
        simpa using this
      have hInner := exprOk_absInner hx (fun k' pos' s' => ihbX k' text pos' s')
        (show needFuel b + 1 ≤ k by omega) hdI (Or.inr ⟨s, rfl⟩)
      have hInner' : expressionR k text (pos + z.length + 1)
          = (.ok (.vnode (.LambdaAbstraction x b)),
             pos + z.length + 1 + ('\\' :: x ++ '.' :: b.render).length) := by
        rw [hlen]
        rw [show pos + z.length + 1 + (x.length + b.render.length + 2)
            = pos + z.length + 1 + x.length + b.render.length + 2 from by omega]
        exact hInner
      have he := elemP_brack hsp (by simpa using h') hInner'
      rw [show pos + z.length + (AstNode.LambdaAbstraction x b).render.length
          = pos + z.length + 1 + ('\\' :: x ++ '.' :: b.render).length + 1 from by
        rw [render_abs_length, hlen]; omega]
      exact he
    · intro n text pos s hn h hs
      rw [needFuel] at hn
      obtain ⟨k, rfl⟩ : ∃ k, n = k + 1 := ⟨n - 1, by omega⟩
      have h' : text.drop pos
          = '(' :: ((('\\' :: x ++ '.' :: b.render) ++ (')' :: s))) := by
        simpa [AstNode.render, bracketedStr] using h
      have hdI : text.drop (pos + 1)
          = '\\' :: (x ++ '.' :: (b.render ++ (')' :: s))) := by
        have := drop_append_of_drop (u := ['('])
          (v := ('\\' :: x ++ '.' :: b.render) ++ (')' :: s)) (by simpa using h')
        simpa using this
      have hInner := exprOk_absInner hx (fun k' pos' s' => ihbX k' text pos' s')
        (show needFuel b + 1 ≤ k by omega) hdI (Or.inr ⟨s, rfl⟩)
      have hInner' : expressionR k text (pos + 1)
          = (.ok (.vnode (.LambdaAbstraction x b)),
             pos + 1 + ('\\' :: x ++ '.' :: b.render).length) := by
        rw [hlen]
        rw [show pos + 1 + (x.length + b.render.length + 2)
            = pos + 1 + x.length + b.render.length + 2 from by omega]
        exact hInner
      have he := exprOk_brack h' hs hInner'
      rw [show pos + (AstNode.LambdaAbstraction x b).render.length
          = pos + ('\\' :: x ++ '.' :: b.render).length + 2 from by
        rw [render_abs_length, hlen]; omega]
      exact he
  | FunctionApplication F A ihF ihA =>
    intro hg
    obtain ⟨hgF, hgA⟩ := hg
    obtain ⟨ihFE, _⟩ := ihF hgF
    obtain ⟨ihAE, _⟩ := ihA hgA
    have hlen : (F.render ++ ' ' :: A.render).length
        = F.render.length + A.render.length + 1 := by
      simp
      omega
    refine ⟨?_, ?_⟩
    · intro k text pos z s hk h hsp hnl
      rw [needFuel] at hk
      have h' : text.drop pos
          = z ++ '(' :: ((F.render ++ ' ' :: A.render) ++ (')' :: s)) := by
        simpa [AstNode.render, bracketedStr] using h
      have hd0 : text.drop (pos + z.length)
          = '(' :: ((F.render ++ ' ' :: A.render) ++ (')' :: s)) :=
        drop_append_of_drop h'
      have hdI : text.drop (pos + z.length + 1)
          = F.render ++ (' ' :: (A.render ++ (')' :: s))) := by
        have := drop_append_of_drop (u := ['('])
          (v := (F.render ++ ' ' :: A.render) ++ (')' :: s)) (by simpa using hd0)
        simpa using this
      have hInner := exprOk_appInner (fun k' pos' => ihFE k' text pos')
        (fun k' pos' => ihAE k' text pos')
        (show max (needFuel F) (needFuel A) + 1 ≤ k by omega) hdI (Or.inr ⟨s, rfl⟩)
      have hInner' : expressionR k text (pos + z.length + 1)
          = (.ok (.vnode (.FunctionApplication F A)),
             pos + z.length + 1 + (F.render ++ ' ' :: A.render).length) := by
        rw [hlen]
        rw [show pos + z.length + 1 + (F.render.length + A.render.length + 1)
            = pos + z.length + 1 + F.render.length + A.render.length + 1 from by omega]
        exact hInner
      have he := elemP_brack hsp (by simpa using h') hInner'
      rw [show pos + z.length + (AstNode.FunctionApplication F A).render.length
          = pos + z.length + 1 + (F.render ++ ' ' :: A.render).length + 1 from by
        rw [render_app_length, hlen]; omega]
      exact he
    · intro n text pos s hn h hs
      rw [needFuel] at hn
      obtain ⟨k, rfl⟩ : ∃ k, n = k + 1 := ⟨n - 1, by omega⟩
      have h' : text.drop pos
          = '(' :: ((F.render ++ ' ' :: A.render) ++ (')' :: s)) := by
        simpa [AstNode.render, bracketedStr] using h
      have hdI : text.drop (pos + 1)
          = F.render ++ (' ' :: (A.render ++ (')' :: s))) := by
        have := drop_append_of_drop (u := ['('])
          (v := (F.render ++ ' ' :: A.render) ++ (')' :: s)) (by simpa using h')
        simpa using this
      have hInner := exprOk_appInner (fun k' pos' => ihFE k' text pos')
        (fun k' pos' => ihAE k' text pos')
        (show max (needFuel F) (needFuel A) + 1 ≤ k by omega) hdI (Or.inr ⟨s, rfl⟩)
      have hInner' : expressionR k text (pos + 1)
          = (.ok (.vnode (.FunctionApplication F A)),
             pos + 1 + (F.render ++ ' ' :: A.render).length) := by
        rw [hlen]
        rw [show pos + 1 + (F.render.length + A.render.length + 1)
            = pos + 1 + F.render.length + A.render.length + 1 from by omega]
        exact hInner
      have he := exprOk_brack h' hs hInner'
      rw [show pos + (AstNode.FunctionApplication F A).render.length
          = pos + (F.render ++ ' ' :: A.render).length + 2 from by
        rw [render_app_length, hlen]; omega]
      exact he

theorem render_pos (a : AstNode) (hg : goodAst a) : 1 ≤ a.render.length := by
  cases a with
  | Variable name =>
    obtain ⟨hne, _⟩ := hg
    cases name with
    | nil => exact absurd rfl hne
    | cons c cs => simp [AstNode.render]
  | LambdaAbstraction x b => simp [AstNode.render, bracketedStr]
  | FunctionApplication F A => simp [AstNode.render, bracketedStr]

theorem needFuel_le (a : AstNode) (hg : goodAst a) : needFuel a ≤ 3 * a.render.length := by
  induction a with
  | Variable name =>
    have := render_pos _ hg
    simp only [needFuel]
    omega
  | LambdaAbstraction x b ihb =>
    obtain ⟨hx, hgb⟩ := hg
    have h1 := ihb hgb
    simp only [needFuel, render_abs_length]
    omega
  | FunctionApplication F A ihF ihA =>
    obtain ⟨hgF, hgA⟩ := hg
    have h1 := ihF hgF
    have h2 := ihA hgA
    simp only [needFuel, render_app_length]
    omega

theorem parse_render (a : AstNode) (hg : goodAst a) : parse a.render = .ok (.vnode a) := by
  have hfuel : needFuel a ≤ parseFuel a.render := by
    have := needFuel_le a hg
    simp only [parseFuel]
    omega
  have hexpr := (renderParses a hg).2 (parseFuel a.render) a.render 0 [] hfuel
    (by simp) (Or.inl rfl)
  have hexpr' : expressionR (parseFuel a.render) a.render 0
      = (.ok (.vnode a), a.render.length) := by simpa using hexpr
  have hb : blanksP a.render a.render.length = (.ok .vnone, a.render.length) := by
    simp [blanksP, Nat.sub_self, blanksAux]
  have hseqP := sequenceP_ok (seqAux_cons_ok hexpr' (seqAux_cons_ok hb seqAux_nil))
  simp only [parse, topExpressionP, hseqP]
  simp [PValue.getList]

theorem choiceAux_out {ps : List ParserT} :
    ∀ {pos q : Nat} {v : PValue}, choiceAux ps pos = (.ok v, q) →
    ∃ p ∈ ps, p pos = (.ok v, q) := by
  induction ps with
  | nil =>
    intro pos q v h
    simp [choiceAux] at h
  | cons p ps ih =>
    intro pos q v h
    rw [choiceAux] at h
    rcases hp : p pos with ⟨res, q'⟩
    rw [hp] at h
    cases res with
    | error e =>
      obtain ⟨p', hm, hp'⟩ := ih h
      exact ⟨p', List.mem_cons_of_mem _ hm, hp'⟩
    | ok v' =>
      simp at h
      exact ⟨p, List.mem_cons_self _ _, by rw [hp, h.1, h.2]⟩

theorem seqAux_sound {ps : List ParserT} :
    ∀ {pos q : Nat} {vs : List PValue}, seqAux ps pos = (.ok vs, q) →
    SeqRun ps pos vs q := by
  induction ps with
  | nil =>
    intro pos q vs h
    rw [seqAux] at h
    injection h with h1 h2
    injection h1 with h1
    subst h1
    subst h2
    exact .nil pos
  | cons p ps ih =>
    intro pos q vs h
    rcases hp : p pos with ⟨res, q'⟩
    cases res with
    | error e =>
      have hcomp : seqAux (p :: ps) pos = (.error e, pos) := by simp [seqAux, hp]
      rw [hcomp] at h
      simp at h
    | ok v =>
      rcases hs : seqAux ps q' with ⟨res2, q2⟩
      cases res2 with
      | error e2 =>
        have hcomp : seqAux (p :: ps) pos = (.error e2, q2) := by simp [seqAux, hp, hs]
        rw [hcomp] at h
        simp at h
      | ok vs2 =>
        have hcomp : seqAux (p :: ps) pos = (.ok (v :: vs2), q2) := by simp [seqAux, hp, hs]
        rw [hcomp] at h
        injection h with h1 h2
        injection h1 with h1
        subst h2
        rw [← h1]
        exact .cons hp (ih hs)

theorem sequenceP_ok_inv {ps : List ParserT} {pos q : Nat} {v : PValue}
    (h : sequenceP ps pos = (.ok v, q)) :
    ∃ vs, v = .vlist vs ∧ seqAux ps pos = (.ok vs, q) := by
  rcases hs : seqAux ps pos with ⟨res, q'⟩
  cases res with
  | error e =>
    have hcomp : sequenceP ps pos = (.error e, pos) := by simp [sequenceP, hs]
    rw [hcomp] at h
    simp at h
  | ok vs =>
    have hcomp : sequenceP ps pos = (.ok (.vlist vs), q') := by simp [sequenceP, hs]
    rw [hcomp] at h
    injection h with h1 h2
    injection h1 with h1
    subst h2
    exact ⟨vs, h1.symm, rfl⟩

theorem manyP_ok_inv {p : ParserT} {fuel pos q : Nat} {v : PValue}
    (h : manyP fuel p pos = (.ok v, q)) :
    ∃ ws, v = .vlist ws ∧ manyAux p fuel pos = (ws, q) := by
  rcases hm : manyAux p fuel pos with ⟨ws, q'⟩
  have hcomp : manyP fuel p pos = (.ok (.vlist ws), q') := by simp [manyP, hm]
  rw [hcomp] at h
  injection h with h1 h2
  injection h1 with h1
  subst h2
  exact ⟨ws, h1.symm, rfl⟩

theorem manyAux_out {p : ParserT} :
    ∀ {fuel pos q : Nat} {vs : List PValue}, manyAux p fuel pos = (vs, q) →
    ∀ v ∈ vs, ∃ p1 p2, p p1 = (.ok v, p2) := by
  intro fuel
  induction fuel with
  | zero =>
    intro pos q vs h v hv
    rw [manyAux] at h
    injection h with h1 _
    subst h1
    simp at hv
  | succ f ih =>
    intro pos q vs h v hv
    rcases hp : p pos with ⟨res, q'⟩
    cases res with
    | error e =>
      have hcomp : manyAux p (f + 1) pos = ([], pos) := by simp [manyAux, hp]
      rw [hcomp] at h
      injection h with h1 _
      subst h1
      simp at hv
    | ok w =>
      rcases hm : manyAux p f q' with ⟨ws, q2⟩
      have hcomp : manyAux p (f + 1) pos = (w :: ws, q2) := by simp [manyAux, hp, hm]
      rw [hcomp] at h
      injection h with h1 _
      subst h1
      rcases List.mem_cons.mp hv with rfl | hv'
      · exact ⟨pos, q', hp⟩
      · exact ih hm v hv'

theorem letterP_out {text : List Char} {pos q : Nat} {v : PValue}
    (h : letterP text pos = (.ok v, q)) :
    ∃ c, v = .vstr [c] ∧ isLetterChar c = true := by
  rw [letterP] at h
  rcases hg : text[pos]? with _ | c
  · rw [hg] at h
    simp at h
  · rw [hg] at h
    by_cases hc : isLetterChar c = true
    · simp [hc] at h
      exact ⟨c, h.1.symm, hc⟩
    · simp [hc] at h

theorem identifierP_out {text : List Char} {pos q : Nat} {v : PValue}
    (h : identifierP text pos = (.ok v, q)) :
    ∃ nm, v = .vstr nm ∧ goodName nm := by
  rcases hs : sequenceP [letterP text, manyP (text.length + 1) (letterP text)]
    ((blanksP text pos).2) with ⟨res, q'⟩
  cases res with
  | error e =>
    have hcomp : identifierP text pos
        = (.error (Err.make pos "An identifier is expected.".data), pos) := by
      simp [identifierP, hs]
    rw [hcomp] at h
    simp at h
  | ok vv =>
    obtain ⟨vs, rfl, hseq⟩ := sequenceP_ok_inv hs
    have hrun := seqAux_sound hseq
    cases hrun with
    | cons hA t1 =>
      cases t1 with
      | cons hB t2 =>
        cases t2 with
        | nil =>
          obtain ⟨c, rfl, hc⟩ := letterP_out hA
          obtain ⟨ws, rfl, hws⟩ := manyP_ok_inv hB
          have hcomp : identifierP text pos
              = (.ok (.vstr (c :: (ws.map PValue.getStr).flatten)), q') := by
            simp [identifierP, hs, PValue.getList, PValue.getStr]
          rw [hcomp] at h
          injection h with h1 h2
          injection h1 with h1
          refine ⟨c :: (ws.map PValue.getStr).flatten, h1.symm, ?_, ?_⟩
          · simp
          · intro d hd
            rcases List.mem_cons.mp hd with rfl | hd'
            · exact hc
            · obtain ⟨l, hl, hdl⟩ := List.mem_flatten.mp hd'
              obtain ⟨w, hw, rfl⟩ := List.mem_map.mp hl
              obtain ⟨p1, p2, hpw⟩ := manyAux_out hws w hw
              obtain ⟨d2, rfl, hd2⟩ := letterP_out hpw
              simp [PValue.getStr] at hdl
              subst hdl
              exact hd2

theorem variableP_out {text : List Char} {pos q : Nat} {v : PValue}
    (h : variableP text pos = (.ok v, q)) :
    ∃ nm, v = .vnode (.Variable nm) ∧ goodName nm := by
  rcases hi : identifierP text pos with ⟨res, q'⟩
  cases res with
  | error e =>
    have hcomp : variableP text pos
        = (.error (e.appendMessage pos "A variable is expected.".data), pos) := by
      simp [variableP, hi]
    rw [hcomp] at h
    simp at h
  | ok w =>
    obtain ⟨nm, rfl, hg⟩ := identifierP_out hi
    have hcomp : variableP text pos = (.ok (.vnode (.Variable nm)), q') := by
      simp [variableP, hi, PValue.getStr]
    rw [hcomp] at h
    injection h with h1 h2
    injection h1 with h1
    exact ⟨nm, h1.symm, hg⟩

theorem lambdaAbstractionP_out {text : List Char} {E : ParserT} (hexpr : GoodOut E)
    {pos q : Nat} {v : PValue} (h : lambdaAbstractionP text E pos = (.ok v, q)) :
    ∃ x b, v = .vnode (.LambdaAbstraction x b) ∧ goodName x ∧ goodAst b := by
  rcases hs : sequenceP [punctuationP text '\\', identifierP text, punctuationP text '.'] pos
    with ⟨res, q'⟩
  cases res with
  | error e =>
    have hcomp : lambdaAbstractionP text E pos
        = (.error (e.appendMessage pos "A lambda abstraction is expected.".data), pos) := by
      simp [lambdaAbstractionP, hs]
    rw [hcomp] at h
    simp at h
  | ok vv =>
    rcases he : E q' with ⟨res2, q2⟩
    cases res2 with
    | error e2 =>
      have hcomp : lambdaAbstractionP text E pos
          = (.error (e2.appendMessage pos "An expression is expected.".data), pos) := by
        simp [lambdaAbstractionP, hs, he]
      rw [hcomp] at h
      simp at h
    | ok bv =>
      obtain ⟨b, rfl, hgb⟩ := hexpr q' bv q2 he
      obtain ⟨vs, rfl, hseq⟩ := sequenceP_ok_inv hs
      have hrun := seqAux_sound hseq
      cases hrun with
      | cons hA t1 =>
        cases t1 with
        | cons hB t2 =>
          cases t2 with
          | cons hC t3 =>
            cases t3 with
            | nil =>
              obtain ⟨nm, rfl, hgn⟩ := identifierP_out hB
              have hcomp : lambdaAbstractionP text E pos
                  = (.ok (.vnode (.LambdaAbstraction nm b)), q2) := by
                simp [lambdaAbstractionP, hs, he, PValue.getList, PValue.getStr,
                  PValue.getNode]
              rw [hcomp] at h
              injection h with h1 h2
              injection h1 with h1
              exact ⟨nm, b, h1.symm, hgn, hgb⟩

theorem bracketedP_out {text : List Char} {p : ParserT} (hp : GoodOut p)
    {pos q : Nat} {v : PValue} (h : bracketedP text p pos = (.ok v, q)) :
    ∃ t, v = .vnode t ∧ goodAst t := by
  rcases hs : sequenceP [punctuationP text '(', p, punctuationP text ')'] pos
    with ⟨res, q'⟩
  cases res with
  | error e =>
    have hcomp : bracketedP text p pos = (.error e, pos) := by
      simp [bracketedP, hs]
    rw [hcomp] at h
    simp at h
  | ok vv =>
    obtain ⟨vs, rfl, hseq⟩ := sequenceP_ok_inv hs
    have hrun := seqAux_sound hseq
    cases hrun with
    | cons hA t1 =>
      cases t1 with
      | cons hB t2 =>
        cases t2 with
        | cons hC t3 =>
          cases t3 with
          | nil =>
            obtain ⟨t, rfl, hgt⟩ := hp _ _ _ hB
            have hcomp : bracketedP text p pos = (.ok (.vnode t), q') := by
              simp [bracketedP, hs, PValue.getList]
            rw [hcomp] at h
            injection h with h1 h2
            injection h1 with h1
            exact ⟨t, h1.symm, hgt⟩

theorem elemP_out {text : List Char} {E : ParserT} (hexpr : GoodOut E) :
    GoodOut (elemP text E) := by
  intro pos v q h
  have h' : choiceAux [variableP text, lambdaAbstractionP text E,
      bracketedP text E] pos = (.ok v, q) := by
    simpa [elemP, choiceP] using h
  obtain ⟨p, hm, hp⟩ := choiceAux_out h'
  simp only [List.mem_cons, List.not_mem_nil, or_false] at hm
  rcases hm with rfl | rfl | rfl
  · obtain ⟨nm, rfl, hg⟩ := variableP_out hp
    exact ⟨_, rfl, hg⟩
  · obtain ⟨x, b, rfl, hx, hb⟩ := lambdaAbstractionP_out hexpr hp
    exact ⟨_, rfl, hx, hb⟩
  · exact bracketedP_out hexpr hp

theorem foldl_app_good :
    ∀ (ts : List AstNode) (t0 : AstNode), goodAst t0 → (∀ t ∈ ts, goodAst t) →
    goodAst (List.foldl (fun x y => AstNode.FunctionApplication x y) t0 ts) := by
  intro ts
  induction ts with
  | nil =>
    intro t0 h _
    simpa using h
  | cons t ts ih =>
    intro t0 h0 hall
    exact ih _ ⟨h0, hall t (by simp)⟩ (fun u hu => hall u (by simp [hu]))

theorem functionApplicationsP_out {text : List Char} {E : ParserT}
    (hexpr : GoodOut E) {pos q : Nat} {v : PValue}
    (h : functionApplicationsP text E pos = (.ok v, q)) :
    ∃ t, v = .vnode t ∧ goodAst t := by
  rcases hs : sequenceP [elemP text E, elemP text E,
      manyP (text.length + 1) (elemP text E)] pos with ⟨res, q'⟩
  cases res with
  | error e =>
    have hcomp : functionApplicationsP text E pos
        = (.error (e.appendMessage pos "Function applications are expected.".data), pos) := by
      simp [functionApplicationsP, hs]
    rw [hcomp] at h
    simp at h
  | ok vv =>
    obtain ⟨vs, rfl, hseq⟩ := sequenceP_ok_inv hs
    have hrun := seqAux_sound hseq
    cases hrun with
    | cons hA t1 =>
      cases t1 with
      | cons hB t2 =>
        cases t2 with
        | cons hC t3 =>
          cases t3 with
          | nil =>
            obtain ⟨t0, rfl, h0⟩ := elemP_out hexpr _ _ _ hA
            obtain ⟨t1, rfl, h1g⟩ := elemP_out hexpr _ _ _ hB
            obtain ⟨ws, rfl, hws⟩ := manyP_ok_inv hC
            have hcomp : functionApplicationsP text E pos
                = (.ok (.vnode (List.foldl (fun x y => AstNode.FunctionApplication x y)
                    t0 (t1 :: ws.map PValue.getNode))), q') := by
              simp [functionApplicationsP, hs, PValue.getList, PValue.getNode]
            rw [hcomp] at h
            injection h with h1 h2
            injection h1 with h1
            refine ⟨_, h1.symm, foldl_app_good _ t0 h0 ?_⟩
            intro t ht
            rcases List.mem_cons.mp ht with rfl | ht'
            · exact h1g
            · obtain ⟨w, hw, rfl⟩ := List.mem_map.mp ht'
              obtain ⟨p1, p2, hpw⟩ := manyAux_out hws w hw
              obtain ⟨t', rfl, hgt'⟩ := elemP_out hexpr _ _ _ hpw
              simpa [PValue.getNode] using hgt'

theorem termP_out {text : List Char} {E : ParserT} (hexpr : GoodOut E)
    {pos q : Nat} {v : PValue} (h : termP text E pos = (.ok v, q)) :
    ∃ t, v = .vnode t ∧ goodAst t := by
  rcases hc : choiceP [functionApplicationsP text E, variableP text,
      lambdaAbstractionP text E] pos with ⟨res, q'⟩
  cases res with
  | error e =>
    have hcomp : termP text E pos
        = (.error (e.appendMessage pos "A term is expected.".data), pos) := by
      simp [termP, hc]
    rw [hcomp] at h
    simp at h
  | ok w =>
    have hcomp : termP text E pos = (.ok w, q') := by
      simp [termP, hc]
    rw [hcomp] at h
    injection h with h1 h2
    injection h1 with h1
    subst h1
    subst h2
    obtain ⟨p, hm, hp⟩ := choiceAux_out (show choiceAux [functionApplicationsP text E,
      variableP text, lambdaAbstractionP text E] pos = (.ok w, q') from by
        simpa [choiceP] using hc)
    simp only [List.mem_cons, List.not_mem_nil, or_false] at hm
    rcases hm with rfl | rfl | rfl
    · exact functionApplicationsP_out hexpr hp
    · obtain ⟨nm, rfl, hg⟩ := variableP_out hp
      exact ⟨_, rfl, hg⟩
    · obtain ⟨x, b, rfl, hx, hb⟩ := lambdaAbstractionP_out hexpr hp
      exact ⟨_, rfl, hx, hb⟩

theorem expressionR_out : ∀ (n : Nat) (text : List Char), GoodOut (expressionR n text) := by
  intro n
  induction n with
  | zero =>
    intro text pos v q h
    rw [expressionR] at h
    simp at h
  | succ m ih =>
    intro text pos v q h
    rcases hc : choiceP [termP text (expressionR m text),
        bracketedP text (expressionR m text)] pos with ⟨res, q'⟩
    cases res with
    | error e =>
      have hcomp : expressionR (m + 1) text pos
          = (.error (Err.make pos "An expression is expected.".data), pos) := by
        simp [expressionR, hc]
      rw [hcomp] at h
      simp at h
    | ok w =>
      have hcomp : expressionR (m + 1) text pos = (.ok w, q') := by
        simp [expressionR, hc]
      rw [hcomp] at h
      injection h with h1 h2
      injection h1 with h1
      subst h1
      subst h2
      obtain ⟨p, hm, hp⟩ := choiceAux_out (show choiceAux [termP text (expressionR m text),
        bracketedP text (expressionR m text)] pos = (.ok w, q') from by
          simpa [choiceP] using hc)
      simp only [List.mem_cons, List.not_mem_nil, or_false] at hm
      rcases hm with rfl | rfl
      · exact termP_out (ih text) hp
      · exact bracketedP_out (ih text) hp

theorem topExpressionP_ok {text : List Char} {fuel pos q' : Nat} {w1 w2 : PValue}
    (hs : sequenceP [expressionR fuel text, blanksP text] pos = (.ok (.vlist [w1, w2]), q'))
    (hq : q' = text.length) :
    topExpressionP text fuel pos = (.ok w1, q') := by
  simp [topExpressionP, hs, hq, PValue.getList]

theorem topExpressionP_extra {text : List Char} {fuel pos q' : Nat} {vv : PValue}
    (hs : sequenceP [expressionR fuel text, blanksP text] pos = (.ok vv, q'))
    (hq : ¬ q' = text.length) :
    topExpressionP text fuel pos
      = (.error (Err.make pos ("Extra characters are detected at position, ".data
          ++ natChars q' ++ ".".data)), pos) := by
  simp [topExpressionP, hs, hq]

theorem parse_out {text : List Char} {v : PValue} (h : parse text = .ok v) :
    ∃ t, v = .vnode t ∧ goodAst t := by
  rcases hs : sequenceP [expressionR (parseFuel text) text, blanksP text] 0
    with ⟨res, q'⟩
  cases res with
  | error e =>
    have hcomp : parse text = .error e := by
      simp [parse, topExpressionP, hs]
    rw [hcomp] at h
    simp at h
  | ok vv =>
    obtain ⟨vs, rfl, hseq⟩ := sequenceP_ok_inv hs
    have hrun := seqAux_sound hseq
    cases hrun with
    | @cons p1 ps1 pos0 pos₁ pos₂ w1 vs1 hA t1 =>
      cases t1 with
      | @cons p2 ps2 pos1b pos2b pos2c w2 vs2 hB t2 =>
        cases t2 with
        | nil =>
          by_cases hq : q' = text.length
          · have hcomp : parse text = .ok w1 := by
              rw [parse, topExpressionP_ok hs hq]
            rw [hcomp] at h
            injection h with h1
            subst h1
            exact expressionR_out (parseFuel text) text 0 _ _ hA
          · have hcomp : parse text
                = .error (Err.make 0 ("Extra characters are detected at position, ".data
                    ++ natChars q' ++ ".".data)) := by
              rw [parse, topExpressionP_extra hs hq]
            rw [hcomp] at h
            exact Except.noConfusion h

theorem interpret_ok {fuel : Nat} {text : List Char} {v : PValue}
    (h : parse text = .ok v) :
    interpret fuel text = .ok (runLoop fuel v.getNode) := by
  show (match parse text with
    | .error e => (.error e : Except Err (Option AstNode))
    | .ok v => .ok (runLoop fuel v.getNode)) = .ok (runLoop fuel v.getNode)
  rw [h]

/-- Claim C3: round trip — whenever an input text parses successfully, the
parsed node is well formed, rendering it and re-parsing yields exactly the
same node again, and interpreting the rendered text is identical to
interpreting the original text (so the two interpretations render equally
whenever they terminate). -/
theorem claim_C3 (text : List Char) (v : PValue) (h : parse text = .ok v) :
    ∃ a, v = .vnode a ∧ goodAst a ∧ parse a.render = .ok (.vnode a)
      ∧ ∀ fuel, interpret fuel a.render = interpret fuel text := by
  obtain ⟨a, rfl, hg⟩ := parse_out h
  refine ⟨a, rfl, hg, parse_render a hg, ?_⟩
  intro fuel
  rw [interpret_ok h, interpret_ok (parse_render a hg)]

theorem claim_C3_witness :
    ∃ a, PValue.vnode (AstNode.Variable ['x']) = .vnode a ∧ goodAst a
      ∧ parse a.render = .ok (.vnode a)
      ∧ ∀ fuel, interpret fuel a.render = interpret fuel ['x'] :=
  claim_C3 ['x'] (.vnode (.Variable ['x'])) rfl
